import Mathlib

/-!
Verification of the KPI GPT retrieval core (`vector_database.py`,
`data_preprocessor.py`, `kpi_gpt_rag.py`).

Strings are modelled as lists of Unicode code points (`List Nat`), matching
Python's view of `str` as a sequence of code points.  Character predicates
(`isupper`, `islower`, `isalpha`, whitespace) are modelled on the ASCII range,
where they coincide with Python's; all corpus data and queries exercised by
the repository are ASCII.  Floating-point scores are modelled as exact
rationals: every score in the code is a small sum of 1.0/2.0/0.2-style
constants divided by a small integer, and all threshold comparisons
(`> 0.5`, `> -0.7`, `> -0.6`, `> 0.2`) are therefore decided identically by
floats and by rationals.
-/

namespace KpiRag

/-- A Python string, as a list of Unicode code points. -/
abbrev Str := List Nat

/-- Code points of a Lean string literal, for concrete test inputs. -/
def strLit (s : String) : Str := s.toList.map Char.toNat

/-! ### Kernel-computable rational arithmetic

Batteries marks `Rat.add`, `Rat.sub`, `Rat.mul` and `Rat.inv` as
`@[irreducible]`, which blocks `decide`-style evaluation of concrete runs.
The few arithmetic operations the source performs on scores are therefore
defined directly through `Rat.divInt` and `Rat.blt` (both reduce in the
kernel) and related to the ordinary `ℚ` operations by the `…_eq` lemmas
below. -/

/-- `x + 0.2`, the keyword boost step, computed on numerator/denominator. -/
def qaddFifth (a : ℚ) : ℚ := Rat.divInt (5 * a.num + (a.den : Int)) (5 * (a.den : Int))

/-- Python `min` of two rationals. -/
def qmin (a b : ℚ) : ℚ := if Rat.blt b a then b else a

/-- `1.0 - x`, the distance-to-similarity conversion. -/
def qoneSub (a : ℚ) : ℚ := Rat.divInt ((a.den : Int) - a.num) (a.den : Int)

/-- The keyword threshold 0.5. -/
def qHalf : ℚ := Rat.divInt 1 2

/-- The acceptance floor -0.7 of the principal and first expansion blocks. -/
def qNegSevenTenths : ℚ := Rat.divInt (-7) 10

/-- The acceptance floor -0.6 of the primary attempt. -/
def qNegThreeFifths : ℚ := Rat.divInt (-3) 5

/-- The 0.2 floor of the direct principal searches. -/
def qOneFifth : ℚ := Rat.divInt 1 5

theorem rat_blt_iff (a b : ℚ) : Rat.blt a b = true ↔ a < b := Iff.rfl

theorem qmin_eq (a b : ℚ) : qmin a b = min a b := by
  unfold qmin
  by_cases h : Rat.blt b a = true
  · rw [if_pos h]
    exact (min_eq_right ((rat_blt_iff b a).mp h).le).symm
  · rw [if_neg h]
    have hba : ¬ b < a := fun hc => h ((rat_blt_iff b a).mpr hc)
    exact (min_eq_left (le_of_not_lt hba)).symm

theorem qaddFifth_eq (a : ℚ) : qaddFifth a = a + 1/5 := by
  unfold qaddFifth
  have hd : ((a.den : ℚ)) ≠ 0 := by
    exact_mod_cast a.den_nz
  rw [Rat.divInt_eq_div]
  conv_rhs => rw [← Rat.num_div_den a]
  push_cast
  field_simp
  ring

theorem qoneSub_eq (a : ℚ) : qoneSub a = 1 - a := by
  unfold qoneSub
  have hd : ((a.den : ℚ)) ≠ 0 := by
    exact_mod_cast a.den_nz
  rw [Rat.divInt_eq_div]
  conv_rhs => rw [← Rat.num_div_den a]
  push_cast
  field_simp

theorem qHalf_eq : qHalf = 1/2 := by
  unfold qHalf
  rw [Rat.divInt_eq_div]
  norm_num

theorem qNegSevenTenths_eq : qNegSevenTenths = -(7/10) := by
  unfold qNegSevenTenths
  rw [Rat.divInt_eq_div]
  norm_num

theorem qNegThreeFifths_eq : qNegThreeFifths = -(3/5) := by
  unfold qNegThreeFifths
  rw [Rat.divInt_eq_div]
  norm_num

theorem qOneFifth_eq : qOneFifth = 1/5 := by
  unfold qOneFifth
  rw [Rat.divInt_eq_div]
  norm_num

/-- Python `c.isupper()` for a single code point (ASCII range). -/
def isUpperCp (c : Nat) : Bool := 65 ≤ c ∧ c ≤ 90

/-- Python `c.islower()` for a single code point (ASCII range). -/
def isLowerCp (c : Nat) : Bool := 97 ≤ c ∧ c ≤ 122

/-- A cased code point (ASCII range): upper- or lowercase letter. -/
def isCasedCp (c : Nat) : Bool := isUpperCp c || isLowerCp c

/-- Python `c.isalpha()` for a single code point (ASCII range). -/
def isAlphaCp (c : Nat) : Bool := isUpperCp c || isLowerCp c

/-- Python `str.lower` on one code point (ASCII range). -/
def lowerCp (c : Nat) : Nat := if 65 ≤ c ∧ c ≤ 90 then c + 32 else c

/-- Python `str.upper` on one code point (ASCII range). -/
def upperCp (c : Nat) : Nat := if 97 ≤ c ∧ c ≤ 122 then c - 32 else c

/-- Whitespace code points recognised by Python's `str.split` / `str.strip`
(space, tab, newline, carriage return). -/
def isWsCp (c : Nat) : Bool := c = 32 ∨ c = 9 ∨ c = 10 ∨ c = 13

/-- Python `s.lower()`. -/
def lowerStr (s : Str) : Str := s.map lowerCp

/-- Auxiliary scanner for `splitWs`: `acc` holds the current word reversed. -/
def splitWsAux : Str → Str → List Str
  | acc, [] => if acc.isEmpty then [] else [acc.reverse]
  | acc, c :: cs =>
    if isWsCp c then
      if acc.isEmpty then splitWsAux [] cs else acc.reverse :: splitWsAux [] cs
    else splitWsAux (c :: acc) cs

/-- Python `s.split()` with no separator: split on runs of whitespace,
dropping empty fields. -/
def splitWs (s : Str) : List Str := splitWsAux [] s

/-- Python `' '.join(ws)`. -/
def joinSpace : List Str → Str
  | [] => []
  | [w] => w
  | w :: ws => w ++ 32 :: joinSpace ws

/-- Python `s.strip()`: drop leading and trailing whitespace. -/
def stripStr (s : Str) : Str :=
  ((s.dropWhile isWsCp).reverse.dropWhile isWsCp).reverse

/-- `p` is a prefix of `s` (Boolean). -/
def isPrefixArr : Str → Str → Bool
  | [], _ => true
  | _ :: _, [] => false
  | a :: as, b :: bs => a == b && isPrefixArr as bs

/-- Python `p in s`: `p` occurs as a contiguous substring of `s`. -/
def isSubArr (p : Str) (s : Str) : Bool :=
  match s with
  | [] => isPrefixArr p []
  | _ :: rest => isPrefixArr p s || isSubArr p rest

/-- Fuelled worker for `removeAll`; fuel `= s.length` never runs out because
each step consumes at least one code point of `s`. -/
def removeAllFuel (old : Str) : Nat → Str → Str
  | _, [] => []
  | 0, s => s
  | fuel + 1, c :: cs =>
    if ¬ old.isEmpty && isPrefixArr old (c :: cs) then
      removeAllFuel old fuel (cs.drop (old.length - 1))
    else c :: removeAllFuel old fuel cs

/-- Python `s.replace(old, '')`: remove every (left-to-right, non-overlapping)
occurrence of `old` from `s`.  The source only ever calls `replace` with a
non-empty pattern and an empty replacement. -/
def removeAll (old s : Str) : Str := removeAllFuel old s.length s

/-- Python `s.capitalize()`: first code point uppercased, rest lowercased. -/
def capitalizeStr : Str → Str
  | [] => []
  | c :: cs => upperCp c :: cs.map lowerCp

/-- State machine of CPython's `str.istitle()`: `prev` records whether the
previous code point was cased, `seen` whether any cased code point occurred. -/
def istitleAux : Str → Bool → Bool → Bool
  | [], _, seen => seen
  | c :: cs, prev, seen =>
    if isUpperCp c then (if prev then false else istitleAux cs true true)
    else if isLowerCp c then (if prev then istitleAux cs true true else false)
    else istitleAux cs false seen

/-- Python `s.istitle()` (ASCII range). -/
def istitle (s : Str) : Bool := istitleAux s false false

theorem lowerCp_not_upper (c : Nat) : isUpperCp (lowerCp c) = false := by
  simp only [lowerCp, isUpperCp]
  split <;> simp <;> omega

theorem lowerStr_no_upper (s : Str) : ∀ c ∈ lowerStr s, isUpperCp c = false := by
  intro c hc
  simp only [lowerStr, List.mem_map] at hc
  obtain ⟨c₀, _, rfl⟩ := hc
  exact lowerCp_not_upper c₀

theorem istitleAux_no_upper (s : Str) (hs : ∀ c ∈ s, isUpperCp c = false) :
    istitleAux s false false = false := by
  induction s with
  | nil => rfl
  | cons c cs ih =>
    have hc : isUpperCp c = false := hs c (by simp)
    have hcs : ∀ x ∈ cs, isUpperCp x = false := fun x hx => hs x (by simp [hx])
    simp only [istitleAux, hc, Bool.false_eq_true, if_false]
    split
    · rfl
    · exact ih hcs

/-- A word with no uppercase code point is never title-cased: either its first
cased code point is lowercase (CPython returns `False` there) or it has no
cased code point at all. -/
theorem istitle_no_upper (s : Str) (hs : ∀ c ∈ s, isUpperCp c = false) :
    istitle s = false := by
  simpa [istitle] using istitleAux_no_upper s hs

theorem splitWsAux_mem_sub (acc : Str) (s : Str) :
    ∀ w ∈ splitWsAux acc s, ∀ c ∈ w, c ∈ acc ∨ c ∈ s := by
  induction s generalizing acc with
  | nil =>
    intro w hw c hc
    simp only [splitWsAux] at hw
    split at hw
    · simp at hw
    · simp only [List.mem_singleton] at hw
      subst hw
      exact Or.inl (List.mem_reverse.mp hc)
  | cons x xs ih =>
    intro w hw c hc
    simp only [splitWsAux] at hw
    split at hw
    · split at hw
      · rcases ih [] w hw c hc with h | h
        · simp at h
        · exact Or.inr (by simp [h])
      · rcases List.mem_cons.mp hw with rfl | hw'
        · exact Or.inl (List.mem_reverse.mp hc)
        · rcases ih [] w hw' c hc with h | h
          · simp at h
          · exact Or.inr (by simp [h])
    · rcases ih (x :: acc) w hw c hc with h | h
      · rcases List.mem_cons.mp h with rfl | h'
        · exact Or.inr (by simp)
        · exact Or.inl h'
      · exact Or.inr (by simp [h])

/-- Every code point of every word produced by `splitWs` comes from `s`. -/
theorem splitWs_mem_sub (s : Str) : ∀ w ∈ splitWs s, ∀ c ∈ w, c ∈ s := by
  intro w hw c hc
  rcases splitWsAux_mem_sub [] s w hw c hc with h | h
  · simp at h
  · exact h

/-- Words from a lowercased query contain no uppercase code point. -/
theorem splitWs_lower_no_upper (q : Str) :
    ∀ w ∈ splitWs (lowerStr q), ∀ c ∈ w, isUpperCp c = false := by
  intro w hw c hc
  exact lowerStr_no_upper q c (splitWs_mem_sub (lowerStr q) w hw c hc)

/-! ## Data model of `vector_database.py` -/

/-- The `search_method` tag of a result dict (`'semantic'` / `'keyword'`). -/
inductive SearchMethod where
  | semantic
  | keyword
deriving DecidableEq, Repr

/-- One stored entry of the ChromaDB collection: document text plus the
metadata written by `add_documents` (section, chunk id, length, chunk_num).
The embedding vector itself is not stored in the model: the spec fixes it to
be a pure function of the content, which the distance oracle recomputes. -/
structure StoredDoc where
  docId : Str
  content : Str
  sectionName : Str
  lengthMeta : Nat
  chunkNum : Nat
deriving DecidableEq, Repr

/-- The index collection (`self.collection`): an ordered list of stored
documents; `collection.get` returns them in this order. -/
structure Collection where
  docs : List StoredDoc
deriving DecidableEq, Repr

/-- One search-result dict as produced by `_semantic_search` /
`_keyword_search`: content, the metadata section, the `similarity_score`,
and the `search_method` tag. -/
structure SearchResult where
  content : Str
  sectionName : Str
  similarityScore : ℚ
  searchMethod : SearchMethod
deriving DecidableEq, Repr

/-- Stable descending insertion on `similarity_score`: an earlier element is
placed before every later element whose score is ≤ its own, which is exactly
the stable behaviour of Python's `list.sort(key=..., reverse=True)`. -/
def insertDesc (r : SearchResult) : List SearchResult → List SearchResult
  | [] => [r]
  | x :: xs =>
    if x.similarityScore ≤ r.similarityScore then r :: x :: xs
    else x :: insertDesc r xs

/-- Stable sort by descending `similarity_score`
(Python `results.sort(key=lambda x: x[...], reverse=True)`). -/
def sortDesc : List SearchResult → List SearchResult
  | [] => []
  | x :: xs => insertDesc x (sortDesc xs)

/-! ### `_keyword_search` (vector_database.py lines 187–237) -/

/-- Contribution of one query word to `keyword_score`: words of length ≤ 2
are skipped; a word found as a case-insensitive substring of the document
scores 2.0 when `word.istitle() or any(c.isupper() for c in word)` and 1.0
otherwise.  The float accumulator only ever adds 2.0 or 1.0, so it is
integer-valued and modelled as `Nat`. -/
def keywordWordScore (docLower : Str) (word : Str) : Nat :=
  if word.length > 2 then
    if isSubArr word docLower then
      if istitle word || word.any isUpperCp then 2 else 1
    else 0
  else 0

/-- The accumulated `keyword_score` before normalization. -/
def keywordRawScore (queryWords : List Str) (docLower : Str) : Nat :=
  (queryWords.map (keywordWordScore docLower)).sum

/-- `keyword_score` after normalization by `total_words`
(`if total_words > 0: keyword_score = keyword_score / total_words`); the
division is exact (`Rat.divInt`), matching the float comparison behaviour
on these magnitudes. -/
def keywordScore (queryWords : List Str) (docLower : Str) : ℚ :=
  if queryWords.length > 0 then
    Rat.divInt (keywordRawScore queryWords docLower) queryWords.length
  else (keywordRawScore queryWords docLower : ℚ)

/-- The result dict built by `_keyword_search` for a matching document
(its `distance` field `1.0 - keyword_score` is derived, not modelled). -/
def mkKeywordResult (d : StoredDoc) (score : ℚ) : SearchResult :=
  { content := d.content, sectionName := d.sectionName,
    similarityScore := score, searchMethod := .keyword }

/-- `_keyword_search`: scans the whole collection (ignoring the `where`
parameter, which the source never reads), keeps documents whose normalized
keyword score exceeds 0.5, sorts them by descending keyword score and
returns the top `n_results`. -/
def keywordSearch (coll : Collection) (query : Str) (nResults : Nat)
    (whereFilter : Option Str) : List SearchResult :=
  let _ := whereFilter
  let queryWords := splitWs (lowerStr query)
  let keywordMatches := coll.docs.filterMap (fun d =>
    let s := keywordScore queryWords (lowerStr d.content)
    if s > qHalf then some (mkKeywordResult d s) else none)
  (sortDesc keywordMatches).take nResults

/-! ### `_semantic_search` (vector_database.py lines 154–185) -/

/-- Stable ascending insertion on a rational key. -/
def insertAscBy (key : StoredDoc → ℚ) (d : StoredDoc) :
    List StoredDoc → List StoredDoc
  | [] => [d]
  | x :: xs =>
    if key d ≤ key x then d :: x :: xs else x :: insertAscBy key d xs

/-- Stable sort of stored documents by an ascending rational key. -/
def sortAscBy (key : StoredDoc → ℚ) : List StoredDoc → List StoredDoc
  | [] => []
  | x :: xs => insertAscBy key x (sortAscBy key xs)

/-- Modelled from the spec: ChromaDB `collection.query` returns up to
`n_results` stored documents ranked by ascending embedding distance to the
query, restricted (when a `where` clause is given) to documents whose
`section` metadata equals the filter value — the only filter shape the
repository uses.  The embedding distance is abstracted as the oracle
`dist`. -/
def collectionQuery (dist : Str → Str → ℚ) (coll : Collection) (query : Str)
    (nResults : Nat) (whereFilter : Option Str) : List StoredDoc :=
  let cands := match whereFilter with
    | none => coll.docs
    | some sec => coll.docs.filter (fun d => d.sectionName == sec)
  (sortAscBy (fun d => dist query d.content) cands).take nResults

/-- `_semantic_search`: query the collection and convert each hit to a result
dict with `similarity_score = 1.0 - distance`. -/
def semanticSearch (dist : Str → Str → ℚ) (coll : Collection) (query : Str)
    (nResults : Nat) (whereFilter : Option Str) : List SearchResult :=
  (collectionQuery dist coll query nResults whereFilter).map (fun d =>
    { content := d.content, sectionName := d.sectionName,
      similarityScore := qoneSub (dist query d.content),
      searchMethod := .semantic })

/-! ### `_combine_search_results` (vector_database.py lines 239–271) -/

/-- The +0.2 keyword boost, capped at 1.0
(`min(1.0, result['similarity_score'] + 0.2)`). -/
def boostKeyword (r : SearchResult) : SearchResult :=
  { r with similarityScore := qmin 1 (qaddFifth r.similarityScore) }

/-- The common shape of the two passes of `_combine_search_results`: walk
the result list, skip results whose content is already in the `seen_content`
set (content hashing modelled as content identity), and append `f` of each
new result while recording its content as seen. -/
def dedupPass (f : SearchResult → SearchResult) :
    List SearchResult → List Str → List SearchResult × List Str
  | [], seen => ([], seen)
  | r :: rs, seen =>
    if r.content ∈ seen then dedupPass f rs seen
    else
      let p := dedupPass f rs (r.content :: seen)
      (f r :: p.1, p.2)

/-- First pass of `_combine_search_results` (lines 247–253): keyword results,
inserted with the +0.2 boost. -/
def addKeywordResults (rs : List SearchResult) (seen : List Str) :
    List SearchResult × List Str :=
  dedupPass boostKeyword rs seen

/-- Second pass of `_combine_search_results` (lines 256–260): semantic
results whose content was not already included, unchanged. -/
def addSemanticResults (rs : List SearchResult) (seen : List Str) :
    List SearchResult × List Str :=
  dedupPass id rs seen

/-- `_combine_search_results`: keyword results first (boosted, deduplicated),
then unseen semantic results, sorted by descending similarity and cut to the
top `n_results`. -/
def combineSearchResults (semanticResults keywordResults : List SearchResult)
    (nResults : Nat) : List SearchResult :=
  let kw := addKeywordResults keywordResults []
  let sem := addSemanticResults semanticResults kw.2
  (sortDesc (kw.1 ++ sem.1)).take nResults

/-- `search_similar` (vector_database.py lines 135–152): hybrid search
combining the semantic and keyword paths. -/
def searchSimilar (dist : Str → Str → ℚ) (coll : Collection) (query : Str)
    (nResults : Nat) (whereFilter : Option Str) : List SearchResult :=
  let semanticResults := semanticSearch dist coll query nResults whereFilter
  let keywordResults := keywordSearch coll query nResults whereFilter
  combineSearchResults semanticResults keywordResults nResults

/-! ## `data_preprocessor.py`: the Chunker -/

/-- Decimal rendering of a natural number, for Python f-string chunk ids. -/
def natToStr (n : Nat) : Str := (Nat.toDigits 10 n).map Char.toNat

/-- One chunk dict as produced by `_create_section_chunks` /
`_create_size_based_chunks`: content, section, chunk id, and the metadata
fields `length` and `chunk_num` (the single-chunk branch writes no
`chunk_num`; `add_documents` defaults it to 0, modelled as 0 here). -/
structure Chunk where
  content : Str
  sectionName : Str
  chunkId : Str
  lengthMeta : Nat
  chunkNum : Nat
deriving DecidableEq, Repr

/-- The running `current_length` of a word buffer: each word counts its
length plus one for the following space. -/
def curLen (cur : List Str) : Nat := (cur.map (fun w => w.length + 1)).sum

/-- The overlap carried into the next chunk:
`current_chunk[-k:] if len(current_chunk) > k else current_chunk` with
`k = chunk_overlap // 10`.  When `k = 0` the Python slice `[-0:]` is the
whole list, so the entire previous chunk is carried over. -/
def ovlWords (k : Nat) (cur : List Str) : List Str :=
  if cur.length > k then (if k = 0 then cur else cur.drop (cur.length - k))
  else cur

/-- The word loop shared verbatim by `_create_section_chunks` (lines
127–167) and `_create_size_based_chunks` (lines 174–214): greedily fill
`cur`; when the next word would push `current_length` past `chunk_size`
and `cur` is non-empty, emit `cur` and restart from the overlap words plus
the new word; emit the final non-empty buffer after the loop. -/
def chunkLoop (chunkSize k : Nat) : List Str → List Str → List (List Str)
  | cur, [] => if cur.isEmpty then [] else [cur]
  | cur, w :: ws =>
    if curLen cur + (w.length + 1) > chunkSize ∧ ¬ cur.isEmpty then
      cur :: chunkLoop chunkSize k (ovlWords k cur ++ [w]) ws
    else chunkLoop chunkSize k (cur ++ [w]) ws

/-- `_create_section_chunks` (data_preprocessor.py lines 111–169): a section
no longer than `chunk_size` becomes one chunk verbatim; otherwise the word
loop splits it, and chunks are numbered in emission order. -/
def createSectionChunks (chunkSize chunkOverlap : Nat) (text : Str)
    (sectionName : Str) : List Chunk :=
  if text.length ≤ chunkSize then
    [{ content := text, sectionName := sectionName,
       chunkId := sectionName ++ 95 :: natToStr 0,
       lengthMeta := text.length, chunkNum := 0 }]
  else
    (chunkLoop chunkSize (chunkOverlap / 10) [] (splitWs text)).enum.map
      (fun p =>
        { content := joinSpace p.2, sectionName := sectionName,
          chunkId := sectionName ++ 95 :: natToStr p.1,
          lengthMeta := curLen p.2, chunkNum := p.1 })

/-- `_create_size_based_chunks` (data_preprocessor.py lines 171–216): the
same word loop over the whole text, under the section label `general`. -/
def createSizeBasedChunks (chunkSize chunkOverlap : Nat) (text : Str) :
    List Chunk :=
  (chunkLoop chunkSize (chunkOverlap / 10) [] (splitWs text)).enum.map
    (fun p =>
      { content := joinSpace p.2, sectionName := strLit "general",
        chunkId := strLit "chunk_" ++ natToStr p.1,
        lengthMeta := curLen p.2, chunkNum := p.1 })

/-! ## `add_documents` and `reset_database` (vector_database.py) -/

/-- The stored record `add_documents` writes for one chunk. -/
def toStoredDoc (c : Chunk) : StoredDoc :=
  { docId := c.chunkId, content := c.content, sectionName := c.sectionName,
    lengthMeta := c.lengthMeta, chunkNum := c.chunkNum }

/-- `add_documents` (vector_database.py lines 93–133).  Embedding generation
(`generate_embeddings`, lines 79–91) re-raises any model failure; the
oracle `embed` models it as `Except`.  With no chunks, or when embedding
fails, the call returns `False` and `collection.add` is never reached, so
the collection is returned unchanged. -/
def addDocuments (embed : List Str → Except Unit (List (List ℚ)))
    (coll : Collection) (chunks : List Chunk) : Bool × Collection :=
  if chunks.isEmpty then (false, coll)
  else
    match embed (chunks.map Chunk.content) with
    | .error _ => (false, coll)
    | .ok _ => (true, ⟨coll.docs ++ chunks.map toStoredDoc⟩)

/-- `reset_database` (vector_database.py lines 297–306): drop everything and
re-create the empty collection. -/
def resetDatabase (_ : Collection) : Bool × Collection := (true, ⟨[]⟩)

/-! ## `kpi_gpt_rag.py`: the Retrieval Orchestrator -/

def sPrincipal : Str := strLit "principal"

def sClassCaptains : Str := strLit "class_captains"

def sTeachers : Str := strLit "teachers"

def sOfficials : Str := strLit "officials"

def sClubs : Str := strLit "clubs"

/-- `_section_filter_for_query` (kpi_gpt_rag.py lines 210–228): keyword
lists checked in order; the final branch capitalizes each query word and
compares with the three hard-coded name parts. -/
def sectionFilterForQuery (query : Str) : Option Str :=
  let q := lowerStr query
  if [strLit "captain", strLit "class captain",
      strLit "class captains"].any (fun w => isSubArr w q) then
    some sClassCaptains
  else if [strLit "teacher", strLit "instructor",
      strLit "faculty"].any (fun w => isSubArr w q) then
    some sTeachers
  else if [strLit "official", strLit "staff"].any (fun w => isSubArr w q) then
    some sOfficials
  else if [strLit "principal", strLit "principle",
      strLit "head of institute"].any (fun w => isSubArr w q) then
    some sPrincipal
  else if [strLit "club", strLit "bncc", strLit "rover", strLit "scout",
      strLit "debate"].any (fun w => isSubArr w q) then
    some sClubs
  else
    let words := splitWs q
    if decide (words.length ≥ 2) && words.any (fun w =>
        decide (capitalizeStr (stripStr w) ∈
          [strLit "Julekha", strLit "Koli", strLit "Akter"])) then
      some sTeachers
    else none

/-- The indicator phrases of `_is_person_query`. -/
def personIndicators : List Str :=
  [strLit "who is", strLit "tell me about", strLit "information about",
   strLit "contact", strLit "details about", strLit "about"]

/-- `word[0].isupper()` on a split word (split words are non-empty). -/
def headIsUpper : Str → Bool
  | [] => false
  | c :: _ => isUpperCp c

/-- `_is_person_query` (kpi_gpt_rag.py lines 345–360). -/
def isPersonQuery (query : Str) : Bool :=
  let queryLower := lowerStr query
  let hasIndicator := personIndicators.any (fun p => isSubArr p queryLower)
  let words := splitWs query
  let hasNamePattern := decide (words.length ≥ 2) && words.any headIsUpper
  hasIndicator || hasNamePattern

/-- The scaffolding phrases stripped by `_generate_person_queries`. -/
def questionPhrases : List Str :=
  [strLit "who is", strLit "tell me about", strLit "information about",
   strLit "about", strLit "details about", strLit "?"]

/-- The `clean_query` of `_generate_person_queries`: each phrase removed in
turn (case-sensitively, from the original query) with a strip after each
removal. -/
def cleanQueryOf (originalQuery : Str) : Str :=
  questionPhrases.foldl (fun s p => stripStr (removeAll p s)) originalQuery

/-- The `expanded_queries` list of `_generate_person_queries` (kpi_gpt_rag.py
lines 372–386) after the strip-and-drop-empty comprehension, before the
final `list(set(...))`. -/
def expandedQueryPool (originalQuery : Str) : List Str :=
  let cleanQuery := cleanQueryOf originalQuery
  let parts := splitWs cleanQuery
  let expandedQueries : List Str :=
    [cleanQuery ++ strLit " teacher",
     cleanQuery ++ strLit " instructor",
     cleanQuery ++ strLit " staff",
     cleanQuery ++ strLit " official",
     cleanQuery ++ strLit " department",
     cleanQuery ++ strLit " contact",
     (match parts with
      | [] => strLit "instructor"
      | w :: _ => w ++ strLit " instructor"),
     (match parts with
      | [] => strLit "teacher"
      | _ :: _ => parts.getLastD [] ++ strLit " teacher")]
  (expandedQueries.map stripStr).filter (fun q => ¬ q.isEmpty)

/-- `_generate_person_queries` (kpi_gpt_rag.py lines 362–389).  The final
`list(set(...))` enumerates a Python set in an order that depends on the
process-wide string-hash seed; that enumeration is the explicit parameter
`setEnum`. -/
def generatePersonQueries (setEnum : List Str → List Str)
    (originalQuery : Str) : List Str :=
  setEnum (expandedQueryPool originalQuery)

/-- A function that validly enumerates `set(xs)` for the given input:
duplicate-free and with exactly the members of `xs`. -/
def IsSetEnum (f : List Str → List Str) (xs : List Str) : Prop :=
  (f xs).Nodup ∧ ∀ x, x ∈ f xs ↔ x ∈ xs

/-- Python `word.isalpha()` (ASCII range). -/
def isAlphaStr (s : Str) : Bool := ¬ s.isEmpty && s.all isAlphaCp

/-- `_contains_person_name` (kpi_gpt_rag.py lines 391–406). -/
def containsPersonName (content : Str) (query : Str) : Bool :=
  let queryCleaned := stripStr (removeAll (strLit "?")
    (removeAll (strLit "tell me about")
      (removeAll (strLit "who is") (lowerStr query))))
  let queryWords := splitWs queryCleaned
  let nameWords :=
    queryWords.filter (fun w => decide (w.length > 2) && isAlphaStr w)
  if nameWords.isEmpty then false
  else
    let contentLower := lowerStr content
    let nMatches := nameWords.countP (fun w => isSubArr w contentLower)
    decide (nMatches ≥ min 2 nameWords.length)

/-- The underlying hybrid search, as the orchestrator sees it
(`self.vector_db.search_similar` with a fixed index state). -/
abbrev SearchFun := Str → Nat → Option Str → List SearchResult

/-- One issued underlying search: the query string and the `where` filter. -/
abbrev TraceEntry := Str × Option Str

/-- `results[0]['similarity_score']`, only ever read behind a non-emptiness
check in the source. -/
def headScore : List SearchResult → ℚ
  | [] => 0
  | r :: _ => r.similarityScore

/-- The hard-coded fallback queries of the principal branch. -/
def principalQueries : List Str :=
  [strLit "principal Sheikh Mustafizur Rahman",
   strLit "Sheikh Mustafizur Rahman principal KPI",
   strLit "head of institute principal"]

/-- The `for pq in principal_queries` loop (kpi_gpt_rag.py lines 255–259):
return the first result set that is non-empty with top score above 0.2;
also records the searches it issued. -/
def tryPrincipalQueries (search : SearchFun) (n : Nat) :
    List Str → Option (List SearchResult) × List TraceEntry
  | [] => (none, [])
  | pq :: rest =>
    let results := search pq n none
    if ¬ results.isEmpty ∧ headScore results > qOneFifth then
      (some results, [(pq, (none : Option Str))])
    else
      let p := tryPrincipalQueries search n rest
      (p.1, (pq, (none : Option Str)) :: p.2)

/-- The expansion loop shared by both person blocks of
`_retrieve_with_expansion`: search each expanded query in turn; return early
(truncated to `n`) as soon as any result's content contains the person name;
otherwise track the result set with the highest top score.  Returns the
early result (if any), the final best-tracking state, and the issued
searches. -/
def expansionLoop (search : SearchFun) (n : Nat) (userQuery : Str) :
    List Str → Option (List SearchResult) × ℚ →
    Option (List SearchResult) × (Option (List SearchResult) × ℚ) ×
      List TraceEntry
  | [], best => (none, best, [])
  | eq :: rest, best =>
    let results := search eq n none
    if results.any (fun r => containsPersonName r.content userQuery) then
      (some (results.take n), best, [(eq, (none : Option Str))])
    else
      let best' :=
        if ¬ results.isEmpty ∧ headScore results > best.2 then
          (some results, headScore results)
        else best
      let p := expansionLoop search n userQuery rest best'
      (p.1, p.2.1, (eq, (none : Option Str)) :: p.2.2)

/-- The results `_retrieve_with_expansion` returns, together with the
ordered list of underlying `search_similar` calls it issued. -/
structure RetrievalOutcome where
  results : List SearchResult
  trace : List TraceEntry
deriving DecidableEq, Repr

/-- `_retrieve_with_expansion` (kpi_gpt_rag.py lines 230–343), with the
underlying search, the section-injection helper and the set enumeration as
parameters.  Stages in source order: the principal special case, the
class-captains injection, the first person-expansion block, the primary
search with the derived section filter, the second person-expansion block,
and the fallback to the primary results. -/
def retrieveWithExpansion (search : SearchFun)
    (inject : Str → List SearchResult) (setEnum : List Str → List Str)
    (maxResults : Nat) (userQuery : Str) : RetrievalOutcome :=
  let sectionFilter := sectionFilterForQuery userQuery
  let stage1 : Option (List SearchResult) × List TraceEntry :=
    if sectionFilter = some sPrincipal then
      let retrievedDocs := search userQuery maxResults sectionFilter
      if ¬ retrievedDocs.isEmpty ∧ headScore retrievedDocs > qNegSevenTenths then
        (some retrievedDocs, [(userQuery, sectionFilter)])
      else
        let p := tryPrincipalQueries search maxResults principalQueries
        (p.1, (userQuery, sectionFilter) :: p.2)
    else (none, [])
  match stage1 with
  | (some r, t1) => ⟨r, t1⟩
  | (none, t1) =>
    let stage2 : Option (List SearchResult) :=
      if sectionFilter = some sClassCaptains then
        let sectionDocs := inject sClassCaptains
        if ¬ sectionDocs.isEmpty then some sectionDocs else none
      else none
    match stage2 with
    | some r => ⟨r, t1⟩
    | none =>
      let noPrincipalWord : Bool :=
        !(isSubArr sPrincipal (lowerStr userQuery) ||
          isSubArr (strLit "principle") (lowerStr userQuery))
      let stage3 : Option (List SearchResult) × List TraceEntry :=
        if isPersonQuery userQuery && noPrincipalWord then
          let expandedQueries := generatePersonQueries setEnum userQuery
          let p := expansionLoop search maxResults userQuery expandedQueries
            (none, -999)
          match p.1 with
          | some r => (some r, p.2.2)
          | none =>
            match p.2.1 with
            | (some br, bs) =>
              if ¬ br.isEmpty ∧ bs > qNegSevenTenths then
                (some (br.take maxResults), p.2.2)
              else (none, p.2.2)
            | (none, _) => (none, p.2.2)
        else (none, [])
      match stage3 with
      | (some r, t3) => ⟨r, t1 ++ t3⟩
      | (none, t3) =>
        let retrievedDocs := search userQuery maxResults sectionFilter
        let t4 := t1 ++ t3 ++ [(userQuery, sectionFilter)]
        if ¬ retrievedDocs.isEmpty ∧ headScore retrievedDocs > qNegThreeFifths then
          ⟨retrievedDocs, t4⟩
        else
          let stage5 : Option (List SearchResult) × List TraceEntry :=
            if isPersonQuery userQuery then
              let expandedQueries := generatePersonQueries setEnum userQuery
              let p := expansionLoop search maxResults userQuery
                expandedQueries (none, -1)
              match p.1 with
              | some r => (some r, p.2.2)
              | none =>
                match p.2.1 with
                | (some br, _) => (some br, p.2.2)
                | (none, _) => (none, p.2.2)
            else (none, [])
          match stage5 with
          | (some r, t5) => ⟨r, t4 ++ t5⟩
          | (none, t5) => ⟨retrievedDocs, t4 ++ t5⟩

/-! ## Lemmas about the descending sort -/

/-- Descending order on `similarity_score`. -/
def ScoreDesc (a b : SearchResult) : Prop :=
  b.similarityScore ≤ a.similarityScore

theorem insertDesc_perm (r : SearchResult) (l : List SearchResult) :
    (insertDesc r l).Perm (r :: l) := by
  induction l with
  | nil => simp [insertDesc]
  | cons x xs ih =>
    simp only [insertDesc]
    split
    · exact List.Perm.refl _
    · exact (List.Perm.cons x ih).trans (List.Perm.swap r x xs)

theorem sortDesc_perm (l : List SearchResult) : (sortDesc l).Perm l := by
  induction l with
  | nil => simp [sortDesc]
  | cons x xs ih =>
    exact (insertDesc_perm x (sortDesc xs)).trans (List.Perm.cons x ih)

theorem pairwise_insertDesc (r : SearchResult) (l : List SearchResult)
    (h : l.Pairwise ScoreDesc) : (insertDesc r l).Pairwise ScoreDesc := by
  induction l with
  | nil => simp [insertDesc, ScoreDesc]
  | cons x xs ih =>
    rw [List.pairwise_cons] at h
    obtain ⟨h1, h2⟩ := h
    simp only [insertDesc]
    split
    · rename_i hle
      rw [List.pairwise_cons]
      refine ⟨?_, List.pairwise_cons.mpr ⟨h1, h2⟩⟩
      intro b hb
      rcases List.mem_cons.mp hb with rfl | hb'
      · exact hle
      · exact le_trans (h1 b hb') hle
    · rename_i hgt
      rw [List.pairwise_cons]
      refine ⟨?_, ih h2⟩
      intro b hb
      have hb' := (insertDesc_perm r xs).mem_iff.mp hb
      rcases List.mem_cons.mp hb' with rfl | hb''
      · exact (lt_of_not_le hgt).le
      · exact h1 b hb''

theorem sortDesc_sorted (l : List SearchResult) :
    (sortDesc l).Pairwise ScoreDesc := by
  induction l with
  | nil => simp [sortDesc]
  | cons x xs ih => exact pairwise_insertDesc x (sortDesc xs) ih

/-! ## Lemmas about the dedup passes of `_combine_search_results` -/

theorem dedupPass_mem_seen (f : SearchResult → SearchResult)
    (hf : ∀ r, (f r).content = r.content) (rs : List SearchResult) :
    ∀ (seen : List Str) (x : Str),
      x ∈ (dedupPass f rs seen).2 ↔
        x ∈ seen ∨ x ∈ (dedupPass f rs seen).1.map SearchResult.content := by
  induction rs with
  | nil => intro seen x; simp [dedupPass]
  | cons r rs ih =>
    intro seen x
    simp only [dedupPass]
    split
    · rw [ih seen x]
    · simp only [List.map_cons, hf, List.mem_cons]
      rw [ih (r.content :: seen) x]
      simp only [List.mem_cons]
      tauto

theorem dedupPass_not_seen (f : SearchResult → SearchResult)
    (hf : ∀ r, (f r).content = r.content) (rs : List SearchResult) :
    ∀ (seen : List Str), ∀ e ∈ (dedupPass f rs seen).1, e.content ∉ seen := by
  induction rs with
  | nil => intro seen e he; simp [dedupPass] at he
  | cons r rs ih =>
    intro seen e he
    simp only [dedupPass] at he
    split at he
    · exact ih seen e he
    · rename_i hns
      rcases List.mem_cons.mp he with rfl | he'
      · rw [hf]; exact hns
      · intro hc
        exact ih (r.content :: seen) e he' (List.mem_cons_of_mem _ hc)

theorem dedupPass_nodup (f : SearchResult → SearchResult)
    (hf : ∀ r, (f r).content = r.content) (rs : List SearchResult) :
    ∀ (seen : List Str), ((dedupPass f rs seen).1.map SearchResult.content).Nodup := by
  induction rs with
  | nil => intro seen; simp [dedupPass]
  | cons r rs ih =>
    intro seen
    simp only [dedupPass]
    split
    · exact ih seen
    · simp only [List.map_cons, hf, List.nodup_cons]
      refine ⟨?_, ih (r.content :: seen)⟩
      intro hc
      obtain ⟨e, he, hec⟩ := List.mem_map.mp hc
      exact dedupPass_not_seen f hf rs (r.content :: seen) e he
        (hec ▸ List.mem_cons_self _ _)

theorem dedupPass_countP_of_seen (f : SearchResult → SearchResult)
    (hf : ∀ r, (f r).content = r.content) (rs : List SearchResult)
    (seen : List Str) (c : Str) (hc : c ∈ seen) :
    (dedupPass f rs seen).1.countP (fun e => e.content == c) = 0 := by
  rw [List.countP_eq_zero]
  intro e he
  simp only [beq_iff_eq]
  intro hec
  exact dedupPass_not_seen f hf rs seen e he (hec ▸ hc)

theorem dedupPass_find (f : SearchResult → SearchResult)
    (hf : ∀ r, (f r).content = r.content) (rs : List SearchResult) :
    ∀ (seen : List Str) (c : Str) (r0 : SearchResult), c ∉ seen →
      rs.find? (fun r => r.content == c) = some r0 →
      (dedupPass f rs seen).1.countP (fun e => e.content == c) = 1 ∧
      ∀ e ∈ (dedupPass f rs seen).1, e.content = c → e = f r0 := by
  induction rs with
  | nil => intro seen c r0 _ hfind; simp [List.find?] at hfind
  | cons r rs ih =>
    intro seen c r0 hc hfind
    rw [List.find?_cons] at hfind
    by_cases hrc : r.content = c
    · have hbeq : (r.content == c) = true := by simp [hrc]
      rw [hbeq] at hfind
      injection hfind with hr0
      subst hr0
      simp only [dedupPass]
      split
      · rename_i hseen
        exact absurd (hrc ▸ hseen) hc
      · constructor
        · rw [List.countP_cons]
          have h1 : (fun e => e.content == c) (f r) = true := by
            simp [hf, hrc]
          rw [dedupPass_countP_of_seen f hf rs (r.content :: seen) c
            (hrc ▸ List.mem_cons_self _ _)]
          simp [h1]
        · intro e he hec
          rcases List.mem_cons.mp he with rfl | he'
          · rfl
          · exact absurd (hec ▸ hrc ▸ (rfl : r.content = r.content))
              (by
                intro h
                exact dedupPass_not_seen f hf rs (r.content :: seen) e he'
                  (by rw [hec, ← hrc]; exact List.mem_cons_self _ _))
    · have hbeq : (r.content == c) = false := by simp [hrc]
      rw [hbeq] at hfind
      simp only [dedupPass]
      split
      · exact ih seen c r0 hc hfind
      · have hc' : c ∉ r.content :: seen := by
          intro h
          rcases List.mem_cons.mp h with h' | h'
          · exact hrc h'.symm
          · exact hc h'
        obtain ⟨hcount, helem⟩ := ih (r.content :: seen) c r0 hc' hfind
        constructor
        · rw [List.countP_cons, hcount]
          have : (fun e => e.content == c) (f r) = false := by simp [hf, hrc]
          simp [this]
        · intro e he hec
          rcases List.mem_cons.mp he with rfl | he'
          · exact absurd (hf r ▸ hec) hrc
          · exact helem e he' hec

/-! ## Claim C1: the Keyword Matcher -/

/-- The weight every matched query word actually receives: the query is
lowercased before the capitalization test, so the 2.0 branch is
unreachable and a matched word of length > 2 counts 1. -/
def matchedCount (queryWords : List Str) (docLower : Str) : Nat :=
  queryWords.countP (fun w => decide (w.length > 2) && isSubArr w docLower)

theorem keywordWordScore_no_upper (docLower w : Str)
    (hw : ∀ c ∈ w, isUpperCp c = false) :
    keywordWordScore docLower w =
      if decide (w.length > 2) && isSubArr w docLower then 1 else 0 := by
  have hany : w.any isUpperCp = false := by
    rw [List.any_eq_false]
    intro c hc
    simp [hw c hc]
  have htitle := istitle_no_upper w hw
  simp only [keywordWordScore, htitle, hany, Bool.or_self, Bool.false_eq_true,
    if_false, decide_eq_true_eq]
  by_cases h2 : w.length > 2 <;> by_cases hsub : isSubArr w docLower = true <;>
    simp [h2, hsub]

theorem keywordRawScore_no_upper (queryWords : List Str) (docLower : Str)
    (h : ∀ w ∈ queryWords, ∀ c ∈ w, isUpperCp c = false) :
    keywordRawScore queryWords docLower =
      matchedCount queryWords docLower := by
  induction queryWords with
  | nil => simp [keywordRawScore, matchedCount]
  | cons w ws ih =>
    have hw : ∀ c ∈ w, isUpperCp c = false := h w (by simp)
    have hws : ∀ x ∈ ws, ∀ c ∈ x, isUpperCp c = false :=
      fun x hx => h x (by simp [hx])
    simp only [keywordRawScore, List.map_cons, List.sum_cons] at *
    rw [keywordWordScore_no_upper docLower w hw, ih hws]
    simp only [matchedCount, List.countP_cons]
    by_cases hm : (decide (w.length > 2) && isSubArr w docLower) = true <;>
      simp [hm, matchedCount, Nat.add_comm]

/-- The score `_keyword_search` actually computes for a document: the
unweighted matched-word count over the total word count. -/
theorem keywordScore_eq_unweighted (query docLower : Str) :
    keywordScore (splitWs (lowerStr query)) docLower =
      Rat.divInt (matchedCount (splitWs (lowerStr query)) docLower)
        (splitWs (lowerStr query)).length := by
  have h := keywordRawScore_no_upper (splitWs (lowerStr query)) docLower
    (splitWs_lower_no_upper query)
  simp only [keywordScore, h]
  split
  · rfl
  · rename_i hlen
    have hnil : splitWs (lowerStr query) = [] := by
      cases hq : splitWs (lowerStr query) with
      | nil => rfl
      | cons a l => rw [hq] at hlen; simp at hlen
    simp [hnil, matchedCount]

/-- What the keyword search would return with no `n_results` truncation:
documents whose unweighted matched-word count over the total word count
(an exact division, `Rat.divInt`) exceeds the 0.5 threshold. -/
def keywordAboveThreshold (coll : Collection) (query : Str) :
    List SearchResult :=
  let queryWords := splitWs (lowerStr query)
  coll.docs.filterMap (fun d =>
    let s : ℚ := Rat.divInt (matchedCount queryWords (lowerStr d.content))
      queryWords.length
    if s > qHalf then some (mkKeywordResult d s) else none)

theorem filterMap_congr_own {α β : Type} (l : List α) {f g : α → Option β}
    (h : ∀ x ∈ l, f x = g x) : l.filterMap f = l.filterMap g := by
  induction l with
  | nil => rfl
  | cons x xs ih =>
    rw [List.filterMap_cons, List.filterMap_cons, h x (by simp),
      ih (fun y hy => h y (by simp [hy]))]

theorem keywordSearch_eq_sorted_threshold (coll : Collection) (query : Str)
    (nResults : Nat) (whereFilter : Option Str) :
    keywordSearch coll query nResults whereFilter =
      (sortDesc (keywordAboveThreshold coll query)).take nResults := by
  simp only [keywordSearch, keywordAboveThreshold]
  congr 2
  apply filterMap_congr_own
  intro d _
  rw [keywordScore_eq_unweighted query (lowerStr d.content)]

/-- C1, amended: every matched query token of length > 2 contributes 1.0
regardless of capitalization (the query is lowercased before the
name-token test, so the 2.0 weight is unreachable); provided at most
`n_results` documents clear the threshold, the Keyword Matcher returns
exactly the documents whose score `matched/total` exceeds 0.5, each scored
with the unweighted value, sorted in descending score order. -/
theorem c1_keyword_search_amended (coll : Collection) (query : Str)
    (nResults : Nat) (whereFilter : Option Str)
    (h : (keywordAboveThreshold coll query).length ≤ nResults) :
    (keywordSearch coll query nResults whereFilter).Perm
      (keywordAboveThreshold coll query) ∧
    (keywordSearch coll query nResults whereFilter).Pairwise ScoreDesc := by
  rw [keywordSearch_eq_sorted_threshold]
  have hlen : (sortDesc (keywordAboveThreshold coll query)).length ≤ nResults := by
    rw [(sortDesc_perm _).length_eq]
    exact h
  rw [List.take_of_length_le hlen]
  exact ⟨sortDesc_perm _, sortDesc_sorted _⟩

/-- The score formula asserted by claim C1: capitalized/name-like query
tokens of length > 2 found case-insensitively in the chunk count 2.0,
other matched tokens 1.0, normalized by the total token count (the weights
are integers, so the weighted sum is a `Nat`). -/
def claimKeywordScore (query chunk : Str) : ℚ :=
  let tokens := splitWs query
  Rat.divInt
    ((tokens.map (fun w =>
      if decide (w.length > 2) && isSubArr (lowerStr w) (lowerStr chunk) then
        (if istitle w || w.any isUpperCp then 2 else 1)
      else 0)).sum : Nat)
    tokens.length

/-- The corpus document of the C1/C10 counterexamples. -/
def c1Doc : StoredDoc :=
  { docId := strLit "teachers_0",
    content := strLit "julekha akter koli is an instructor",
    sectionName := strLit "teachers", lengthMeta := 35, chunkNum := 0 }

/-- C1 counterexample: for the query `"Julekha phone number"` against a
corpus whose only document contains `julekha`, the claim's formula gives
the capitalized token 2.0, hence score 2/3 > 0.5, so the claim requires
the document to be returned — but the code scores it 1/3 and returns
nothing. -/
theorem c1_counterexample :
    claimKeywordScore (strLit "Julekha phone number") c1Doc.content = 2/3 ∧
    ((2 : ℚ)/3 > 1/2) ∧
    keywordSearch ⟨[c1Doc]⟩ (strLit "Julekha phone number") 5 none = [] := by
  refine ⟨?_, by norm_num, by decide⟩
  have h : claimKeywordScore (strLit "Julekha phone number") c1Doc.content =
      Rat.divInt 2 3 := by decide
  rw [h, Rat.divInt_eq_div]
  norm_num

/-- Witness for the amended C1 theorem: the query `"julekha akter koli"`
matches the single document with unweighted score 1, which clears the
threshold, and the search returns exactly that document. -/
theorem c1_keyword_search_amended_witness :
    (keywordAboveThreshold ⟨[c1Doc]⟩ (strLit "julekha akter koli")).length ≤ 5 ∧
    (keywordSearch ⟨[c1Doc]⟩ (strLit "julekha akter koli") 5 none).Perm
      (keywordAboveThreshold ⟨[c1Doc]⟩ (strLit "julekha akter koli")) ∧
    (keywordSearch ⟨[c1Doc]⟩ (strLit "julekha akter koli") 5 none).Pairwise
      ScoreDesc := by
  have h : (keywordAboveThreshold ⟨[c1Doc]⟩
      (strLit "julekha akter koli")).length ≤ 5 := by decide
  exact ⟨h, c1_keyword_search_amended ⟨[c1Doc]⟩
    (strLit "julekha akter koli") 5 none h⟩

/-! ## Claim C2: the Hybrid Combiner -/

/-- The combined list before the final `[:n_results]` truncation. -/
def combinedPreTruncation (semanticResults keywordResults :
    List SearchResult) : List SearchResult :=
  let kw := addKeywordResults keywordResults []
  let sem := addSemanticResults semanticResults kw.2
  sortDesc (kw.1 ++ sem.1)

theorem combineSearchResults_eq_take (semanticResults keywordResults :
    List SearchResult) (nResults : Nat) :
    combineSearchResults semanticResults keywordResults nResults =
      (combinedPreTruncation semanticResults keywordResults).take nResults :=
  rfl

theorem boostKeyword_content (r : SearchResult) :
    (boostKeyword r).content = r.content := rfl

/-- C2: the Hybrid Combiner output has pairwise-distinct contents, is sorted
by descending (possibly boosted) similarity score, is cut to at most
`n_results` entries, returns empty on empty inputs, and a content returned
by the keyword search appears exactly once in the combined list, carrying
`min(1, first keyword score + 0.2)`. -/
theorem c2_hybrid_combiner (semanticResults keywordResults :
    List SearchResult) (nResults : Nat) :
    (((combineSearchResults semanticResults keywordResults nResults).map
        SearchResult.content).Nodup ∧
      (combineSearchResults semanticResults keywordResults
        nResults).Pairwise ScoreDesc ∧
      (combineSearchResults semanticResults keywordResults
        nResults).length ≤ nResults ∧
      combineSearchResults [] [] nResults = []) ∧
    ∀ (c : Str) (r0 s : SearchResult),
      keywordResults.find? (fun r => r.content == c) = some r0 →
      s ∈ semanticResults → s.content = c →
      (combinedPreTruncation semanticResults keywordResults).countP
        (fun e => e.content == c) = 1 ∧
      ∀ e ∈ combinedPreTruncation semanticResults keywordResults,
        e.content = c →
        e.similarityScore = min 1 (r0.similarityScore + 1/5) := by
  have hfb : ∀ r, (boostKeyword r).content = r.content := fun _ => rfl
  have hfi : ∀ r : SearchResult, (id r).content = r.content := fun _ => rfl
  set kwp := dedupPass boostKeyword keywordResults [] with hkwp
  set semp := dedupPass id semanticResults kwp.2 with hsemp
  have hpre : combinedPreTruncation semanticResults keywordResults =
      sortDesc (kwp.1 ++ semp.1) := rfl
  have hkwsub : ∀ x ∈ kwp.1.map SearchResult.content, x ∈ kwp.2 := by
    intro x hx
    exact (dedupPass_mem_seen boostKeyword hfb keywordResults [] x).mpr
      (Or.inr hx)
  have hnodup : ((kwp.1 ++ semp.1).map SearchResult.content).Nodup := by
    rw [List.map_append]
    apply List.Nodup.append
    · exact dedupPass_nodup boostKeyword hfb keywordResults []
    · exact dedupPass_nodup id hfi semanticResults kwp.2
    · rw [List.disjoint_left]
      intro a ha hb
      obtain ⟨e, he, hec⟩ := List.mem_map.mp hb
      exact dedupPass_not_seen id hfi semanticResults kwp.2 e he
        (hec ▸ hkwsub a ha)
  have hsortnodup :
      ((sortDesc (kwp.1 ++ semp.1)).map SearchResult.content).Nodup :=
    (((sortDesc_perm (kwp.1 ++ semp.1)).map SearchResult.content).nodup_iff).mpr
      hnodup
  constructor
  · refine ⟨?_, ?_, ?_, ?_⟩
    · rw [combineSearchResults_eq_take, hpre, List.map_take]
      exact hsortnodup.sublist (List.map_take _ _ _ ▸ List.take_sublist _ _)
    · rw [combineSearchResults_eq_take, hpre]
      exact (sortDesc_sorted _).sublist (List.take_sublist _ _)
    · rw [combineSearchResults_eq_take]
      exact List.length_take_le _ _
    · simp [combineSearchResults, dedupPass, sortDesc]
  · intro c r0 s hfind _ _
    obtain ⟨hcount, helem⟩ :=
      dedupPass_find boostKeyword hfb keywordResults [] c r0 (by simp) hfind
    have hckw2 : c ∈ kwp.2 := by
      have hpos : 0 < kwp.1.countP (fun e => e.content == c) := by
        rw [hcount]; norm_num
      obtain ⟨e, he, hec⟩ := List.countP_pos_iff.mp hpos
      apply hkwsub
      exact List.mem_map.mpr ⟨e, he, by simpa using hec⟩
    have hsem0 : semp.1.countP (fun e => e.content == c) = 0 :=
      dedupPass_countP_of_seen id hfi semanticResults kwp.2 c hckw2
    constructor
    · rw [hpre, (sortDesc_perm _).countP_eq, List.countP_append, hcount,
        hsem0]
    · intro e he hec
      rw [hpre] at he
      have he' := (sortDesc_perm _).mem_iff.mp he
      rcases List.mem_append.mp he' with hkw | hsem
      · have he2 := helem e hkw hec
        subst he2
        simp [boostKeyword, qmin_eq, qaddFifth_eq]
      · exact absurd (hec ▸ hckw2)
          (dedupPass_not_seen id hfi semanticResults kwp.2 e hsem)

/-- A keyword result and a semantic result sharing the same content, for the
C2 witness. -/
def rKw : SearchResult :=
  { content := strLit "shared doc", sectionName := strLit "teachers",
    similarityScore := Rat.divInt 9 10, searchMethod := .keyword }

/-- The semantic twin of `rKw`. -/
def rSem : SearchResult :=
  { content := strLit "shared doc", sectionName := strLit "teachers",
    similarityScore := Rat.divInt 3 4, searchMethod := .semantic }

/-- Witness for C2's conditional clause: a chunk returned by both searches
appears exactly once in the combined list. -/
theorem c2_hybrid_combiner_witness :
    (combinedPreTruncation [rSem] [rKw]).countP
      (fun e => e.content == rKw.content) = 1 :=
  ((c2_hybrid_combiner [rSem] [rKw] 5).2 rKw.content rKw rSem
    (by decide) (by simp) rfl).1

/-! ## Split/join roundtrip lemmas for the Chunker -/

theorem splitWsAux_tokens (s : Str) :
    ∀ (acc : Str), (∀ c ∈ acc, isWsCp c = false) →
      ∀ w ∈ splitWsAux acc s, w ≠ [] ∧ ∀ c ∈ w, isWsCp c = false := by
  induction s with
  | nil =>
    intro acc hacc w hw
    simp only [splitWsAux] at hw
    split at hw
    · simp at hw
    · rename_i hne
      simp only [List.mem_singleton] at hw
      subst hw
      refine ⟨?_, fun c hc => hacc c (List.mem_reverse.mp hc)⟩
      have hne' : acc ≠ [] := by simpa [List.isEmpty_iff] using hne
      simpa using hne'
  | cons x xs ih =>
    intro acc hacc w hw
    simp only [splitWsAux] at hw
    split at hw
    · rename_i hws
      split at hw
      · exact ih [] (by simp) w hw
      · rename_i hne
        rcases List.mem_cons.mp hw with rfl | hw'
        · refine ⟨?_, fun c hc => hacc c (List.mem_reverse.mp hc)⟩
          have hne' : acc ≠ [] := by simpa [List.isEmpty_iff] using hne
          simpa using hne'
        · exact ih [] (by simp) w hw'
    · rename_i hws
      refine ih (x :: acc) ?_ w hw
      intro c hc
      rcases List.mem_cons.mp hc with rfl | hc'
      · simpa using hws
      · exact hacc c hc'

/-- The words of `splitWs s` are non-empty and whitespace-free. -/
theorem splitWs_tokens (s : Str) :
    ∀ w ∈ splitWs s, w ≠ [] ∧ ∀ c ∈ w, isWsCp c = false :=
  splitWsAux_tokens s [] (by simp)

theorem splitWsAux_clean_append (w : Str) (hw : ∀ c ∈ w, isWsCp c = false) :
    ∀ (acc rest : Str),
      splitWsAux acc (w ++ rest) = splitWsAux (w.reverse ++ acc) rest := by
  induction w with
  | nil => intro acc rest; simp
  | cons c w' ih =>
    intro acc rest
    have hc : isWsCp c = false := hw c (by simp)
    have hw' : ∀ x ∈ w', isWsCp x = false := fun x hx => hw x (by simp [hx])
    simp only [List.cons_append, splitWsAux, hc, Bool.false_eq_true, if_false]
    show splitWsAux (c :: acc) (w' ++ rest) =
      splitWsAux ((c :: w').reverse ++ acc) rest
    rw [ih hw' (c :: acc) rest]
    simp

/-- Splitting the space-join of non-empty, whitespace-free word groups
recovers the groups. -/
theorem splitWs_joinSpace (gs : List Str)
    (h : ∀ g ∈ gs, g ≠ [] ∧ ∀ c ∈ g, isWsCp c = false) :
    splitWs (joinSpace gs) = gs := by
  induction gs with
  | nil => rfl
  | cons g gs ih =>
    obtain ⟨hg, hgc⟩ := h g (by simp)
    have hrest : ∀ x ∈ gs, x ≠ [] ∧ ∀ c ∈ x, isWsCp c = false :=
      fun x hx => h x (by simp [hx])
    cases gs with
    | nil =>
      show splitWsAux [] (joinSpace [g]) = [g]
      simp only [joinSpace]
      rw [show (g : Str) = g ++ [] by simp, splitWsAux_clean_append g hgc [] []]
      simp only [splitWsAux, List.append_nil]
      rw [if_neg (by simpa using hg)]
      simp
    | cons g2 gs2 =>
      show splitWsAux [] (joinSpace (g :: g2 :: gs2)) = g :: g2 :: gs2
      simp only [joinSpace]
      rw [splitWsAux_clean_append g hgc [] (32 :: joinSpace (g2 :: gs2))]
      simp only [splitWsAux, isWsCp]
      rw [if_pos (by simp), if_neg (by simpa using hg)]
      simp only [List.append_nil, List.reverse_reverse]
      have := ih hrest
      simp only [splitWs, joinSpace] at this
      rw [this]

/-! ## Claim C6: the chunk-size bound -/

theorem curLen_append (a b : List Str) :
    curLen (a ++ b) = curLen a + curLen b := by
  simp [curLen]

theorem joinSpace_length_le (g : List Str) :
    (joinSpace g).length ≤ curLen g := by
  induction g with
  | nil => simp [joinSpace, curLen]
  | cons w ws ih =>
    cases ws with
    | nil => simp [joinSpace, curLen]
    | cons w2 ws2 =>
      simp only [joinSpace, List.length_append, List.length_cons] at *
      have : curLen (w :: w2 :: ws2) = (w.length + 1) + curLen (w2 :: ws2) := by
        simp [curLen]
      omega

theorem ovlWords_length_le (k : Nat) (hk : 1 ≤ k) (cur : List Str) :
    (ovlWords k cur).length ≤ k := by
  unfold ovlWords
  split
  · rename_i hgt
    rw [if_neg (by omega)]
    simp only [List.length_drop]
    omega
  · rename_i hle
    omega

theorem ovlWords_subset (k : Nat) (cur : List Str) :
    ∀ t ∈ ovlWords k cur, t ∈ cur := by
  intro t ht
  unfold ovlWords at ht
  split at ht
  · split at ht
    · exact ht
    · exact List.mem_of_mem_drop ht
  · exact ht

/-- The central invariant of the word loop: the running buffer either still
fits the chunk size or is a fresh seed of at most `k + 1` words (the carried
overlap plus the word that overflowed). -/
theorem chunkLoop_invariant (chunkSize k : Nat) (hk : 1 ≤ k) :
    ∀ (ws cur : List Str), (curLen cur ≤ chunkSize ∨ cur.length ≤ k + 1) →
      ∀ g ∈ chunkLoop chunkSize k cur ws,
        curLen g ≤ chunkSize ∨ g.length ≤ k + 1 := by
  intro ws
  induction ws with
  | nil =>
    intro cur hcur g hg
    simp only [chunkLoop] at hg
    split at hg
    · simp at hg
    · simp only [List.mem_singleton] at hg
      subst hg
      exact hcur
  | cons w ws ih =>
    intro cur hcur g hg
    simp only [chunkLoop] at hg
    split at hg
    · rcases List.mem_cons.mp hg with rfl | hg'
      · exact hcur
      · refine ih (ovlWords k cur ++ [w]) ?_ g hg'
        right
        rw [List.length_append, List.length_singleton]
        have := ovlWords_length_le k hk cur
        omega
    · rename_i hguard
      refine ih (cur ++ [w]) ?_ g hg
      by_cases hemp : cur.isEmpty
      · right
        have hnil : cur = [] := by simpa [List.isEmpty_iff] using hemp
        subst hnil
        simp
      · left
        have hle : curLen cur + (w.length + 1) ≤ chunkSize := by
          by_contra hgt
          exact hguard ⟨by omega, by simpa using hemp⟩
        rw [curLen_append]
        simpa [curLen] using hle

/-- Every word of every group comes from the buffer or the remaining words. -/
theorem chunkLoop_tokens (chunkSize k : Nat) :
    ∀ (ws cur : List Str), ∀ g ∈ chunkLoop chunkSize k cur ws,
      ∀ t ∈ g, t ∈ cur ∨ t ∈ ws := by
  intro ws
  induction ws with
  | nil =>
    intro cur g hg t ht
    simp only [chunkLoop] at hg
    split at hg
    · simp at hg
    · simp only [List.mem_singleton] at hg
      subst hg
      exact Or.inl ht
  | cons w ws ih =>
    intro cur g hg t ht
    simp only [chunkLoop] at hg
    split at hg
    · rcases List.mem_cons.mp hg with rfl | hg'
      · exact Or.inl ht
      · rcases ih (ovlWords k cur ++ [w]) g hg' t ht with h | h
        · rcases List.mem_append.mp h with h' | h'
          · exact Or.inl (ovlWords_subset k cur t h')
          · simp only [List.mem_singleton] at h'
            exact Or.inr (by simp [h'])
        · exact Or.inr (by simp [h])
    · rcases ih (cur ++ [w]) g hg t ht with h | h
      · rcases List.mem_append.mp h with h' | h'
        · exact Or.inl h'
        · simp only [List.mem_singleton] at h'
          exact Or.inr (by simp [h'])
      · exact Or.inr (by simp [h])

/-- Groups produced from the split words of `text` are non-empty-token,
whitespace-free word lists, so `splitWs` recovers them from the joined
chunk content. -/
theorem chunkLoop_splitWs_content (chunkSize k : Nat) (text : Str) :
    ∀ g ∈ chunkLoop chunkSize k [] (splitWs text),
      splitWs (joinSpace g) = g := by
  intro g hg
  apply splitWs_joinSpace
  intro t ht
  rcases chunkLoop_tokens chunkSize k (splitWs text) [] g hg t ht with h | h
  · simp at h
  · exact splitWs_tokens text t h

theorem mem_chunks_of_enum_map {f : Nat × List Str → Chunk}
    {groups : List (List Str)} {ch : Chunk}
    (h : ch ∈ groups.enum.map f) :
    ∃ p ∈ groups.enum, ch = f p ∧ p.2 ∈ groups := by
  obtain ⟨p, hp, rfl⟩ := List.mem_map.mp h
  refine ⟨p, hp, rfl, ?_⟩
  have : p.2 ∈ groups.enum.map Prod.snd := List.mem_map_of_mem Prod.snd hp
  simpa [List.enum_map_snd] using this

/-- C6, amended: provided `chunk_overlap ≥ 10` (so at least one overlap word
is carried), every chunk of either path has content length ≤ `chunk_size`
or consists of at most `chunk_overlap/10 + 1` words — the carried overlap
words plus one indivisible word, or a single indivisible word.  (For
`chunk_overlap < 10` the Python slice `[-0:]` re-carries the whole previous
chunk and chunk sizes grow without bound.)  A section whose text is no
longer than `chunk_size` yields exactly one chunk holding the whole text. -/
theorem c6_chunk_bound_amended (chunkSize chunkOverlap : Nat)
    (text sectionName : Str) (hov : 10 ≤ chunkOverlap) :
    (∀ ch ∈ createSectionChunks chunkSize chunkOverlap text sectionName,
      ch.content.length ≤ chunkSize ∨
        (splitWs ch.content).length ≤ chunkOverlap / 10 + 1) ∧
    (∀ ch ∈ createSizeBasedChunks chunkSize chunkOverlap text,
      ch.content.length ≤ chunkSize ∨
        (splitWs ch.content).length ≤ chunkOverlap / 10 + 1) ∧
    (text.length ≤ chunkSize →
      createSectionChunks chunkSize chunkOverlap text sectionName =
        [{ content := text, sectionName := sectionName,
           chunkId := sectionName ++ 95 :: natToStr 0,
           lengthMeta := text.length, chunkNum := 0 }]) := by
  have hk : 1 ≤ chunkOverlap / 10 := Nat.one_le_div_iff (by omega) |>.mpr hov
  have hgroup : ∀ g ∈ chunkLoop chunkSize (chunkOverlap / 10) []
      (splitWs text),
      (joinSpace g).length ≤ chunkSize ∨
        (splitWs (joinSpace g)).length ≤ chunkOverlap / 10 + 1 := by
    intro g hg
    rcases chunkLoop_invariant chunkSize (chunkOverlap / 10) hk
      (splitWs text) [] (Or.inl (by simp [curLen])) g hg with h | h
    · exact Or.inl (le_trans (joinSpace_length_le g) h)
    · right
      rw [chunkLoop_splitWs_content chunkSize (chunkOverlap / 10) text g hg]
      exact h
  refine ⟨?_, ?_, ?_⟩
  · intro ch hch
    unfold createSectionChunks at hch
    split at hch
    · rename_i hsmall
      simp only [List.mem_singleton] at hch
      subst hch
      exact Or.inl hsmall
    · obtain ⟨p, _, rfl, hp2⟩ := mem_chunks_of_enum_map hch
      exact hgroup p.2 hp2
  · intro ch hch
    unfold createSizeBasedChunks at hch
    obtain ⟨p, _, rfl, hp2⟩ := mem_chunks_of_enum_map hch
    exact hgroup p.2 hp2
  · intro hsmall
    unfold createSectionChunks
    rw [if_pos hsmall]

/-- C6 counterexample: with `chunk_size = 10`, `chunk_overlap = 20`, the
section text `"aaaaa bbbbb ccccc"` yields a chunk `"aaaaa bbbbb"` of length
11 > 10 that consists of two words — a splittable word sequence, not a
single indivisible word, so the claimed bound fails. -/
theorem c6_counterexample :
    (createSectionChunks 10 20 (strLit "aaaaa bbbbb ccccc")
      (strLit "sec")).map Chunk.content =
      [strLit "aaaaa", strLit "aaaaa bbbbb", strLit "aaaaa bbbbb ccccc"] ∧
    (strLit "aaaaa bbbbb").length = 11 ∧
    (splitWs (strLit "aaaaa bbbbb")).length = 2 := by
  refine ⟨by decide, by decide, by decide⟩

/-- Witness for the amended C6 theorem at a small section. -/
theorem c6_chunk_bound_amended_witness :
    createSectionChunks 100 20 (strLit "hello world") (strLit "sec") =
      [{ content := strLit "hello world", sectionName := strLit "sec",
         chunkId := strLit "sec" ++ 95 :: natToStr 0,
         lengthMeta := (strLit "hello world").length, chunkNum := 0 }] :=
  (c6_chunk_bound_amended 100 20 (strLit "hello world") (strLit "sec")
    (by norm_num)).2.2 (by decide)

/-! ## Claim C7: overlap non-regression -/

theorem chunkLoop_ne_nil (chunkSize k : Nat) :
    ∀ (ws cur : List Str), cur ≠ [] → chunkLoop chunkSize k cur ws ≠ [] := by
  intro ws
  induction ws with
  | nil =>
    intro cur hcur
    simp only [chunkLoop]
    rw [if_neg (by simpa using hcur)]
    simp
  | cons w ws ih =>
    intro cur hcur
    simp only [chunkLoop]
    split
    · simp
    · exact ih (cur ++ [w]) (by simp)

/-- The first group emitted from buffer `cur` starts with `cur`. -/
theorem chunkLoop_head_take (chunkSize k : Nat) :
    ∀ (ws cur : List Str) (g : List Str) (gs : List (List Str)),
      chunkLoop chunkSize k cur ws = g :: gs → g.take cur.length = cur := by
  intro ws
  induction ws with
  | nil =>
    intro cur g gs h
    simp only [chunkLoop] at h
    split at h
    · simp at h
    · injection h with h1 _
      subst h1
      exact List.take_length _
  | cons w ws ih =>
    intro cur g gs h
    simp only [chunkLoop] at h
    split at h
    · injection h with h1 _
      subst h1
      exact List.take_length _
    · have := ih (cur ++ [w]) g gs h
      have h2 : g.take cur.length = (g.take (cur ++ [w]).length).take cur.length := by
        rw [List.take_take]
        congr 1
        simp only [List.length_append, List.length_singleton]
        omega
      rw [h2, this, List.take_left]

/-- Adjacent groups: each next group starts with the overlap words of the
previous one. -/
theorem chunkLoop_chain (chunkSize k : Nat) :
    ∀ (ws cur : List Str),
      List.Chain' (fun a b => b.take (ovlWords k a).length = ovlWords k a)
        (chunkLoop chunkSize k cur ws) := by
  intro ws
  induction ws with
  | nil =>
    intro cur
    simp only [chunkLoop]
    split
    · simp
    · simp
  | cons w ws ih =>
    intro cur
    simp only [chunkLoop]
    split
    · cases hrest : chunkLoop chunkSize k (ovlWords k cur ++ [w]) ws with
      | nil =>
        exact absurd hrest (chunkLoop_ne_nil chunkSize k ws _ (by simp))
      | cons g gs =>
        rw [List.chain'_cons]
        constructor
        · have hhead := chunkLoop_head_take chunkSize k ws _ g gs hrest
          have h2 : g.take (ovlWords k cur).length =
              (g.take (ovlWords k cur ++ [w]).length).take
                (ovlWords k cur).length := by
            rw [List.take_take]
            congr 1
            simp only [List.length_append, List.length_singleton]
            omega
          rw [h2, hhead, List.take_left]
        · have := ih (ovlWords k cur ++ [w])
          rw [hrest] at this
          exact this
    · exact ih (cur ++ [w])

/-- Transport of the prefix equation to the claim's min-of-overlap form. -/
theorem ovl_take_drop (k : Nat) (a b : List Str)
    (hp : b.take (ovlWords k a).length = ovlWords k a) :
    b.take (min k a.length) = a.drop (a.length - min k a.length) := by
  unfold ovlWords at hp
  by_cases hk0 : k = 0
  · subst hk0
    simp [List.drop_length]
  · by_cases hgt : a.length > k
    · rw [if_pos hgt, if_neg hk0] at hp
      have hlen : (a.drop (a.length - k)).length = k := by
        simp only [List.length_drop]
        omega
      rw [hlen] at hp
      have hmin : min k a.length = k := by omega
      rw [hmin]
      exact hp
    · rw [if_neg hgt] at hp
      have hmin : min k a.length = a.length := by omega
      rw [hmin, Nat.sub_self, List.drop_zero]
      exact hp

/-- The default chunk used for out-of-range `getD` access in statements. -/
def dummyChunk : Chunk :=
  { content := [], sectionName := [], chunkId := [], lengthMeta := 0,
    chunkNum := 0 }

theorem createSizeBasedChunks_length (chunkSize chunkOverlap : Nat)
    (text : Str) :
    (createSizeBasedChunks chunkSize chunkOverlap text).length =
      (chunkLoop chunkSize (chunkOverlap / 10) [] (splitWs text)).length := by
  simp [createSizeBasedChunks]

theorem createSizeBasedChunks_content_get (chunkSize chunkOverlap : Nat)
    (text : Str) (j : Nat)
    (hj : j < (chunkLoop chunkSize (chunkOverlap / 10) []
      (splitWs text)).length) :
    ((createSizeBasedChunks chunkSize chunkOverlap text).getD j
      dummyChunk).content =
      joinSpace ((chunkLoop chunkSize (chunkOverlap / 10) []
        (splitWs text)).get ⟨j, hj⟩) := by
  have hj' : j < (createSizeBasedChunks chunkSize chunkOverlap text).length := by
    rw [createSizeBasedChunks_length]
    exact hj
  rw [List.getD_eq_getElem?_getD, List.getElem?_eq_getElem hj']
  simp only [Option.getD_some]
  show ((createSizeBasedChunks chunkSize chunkOverlap text).get
    ⟨j, hj'⟩).content = _
  simp only [createSizeBasedChunks, List.get_map, List.get_enum]
  rfl

/-- C7: for any two consecutive chunks of size-based splitting, the leading
`min(chunk_overlap/10, |words of chunk i|)` words of chunk `i+1` are exactly
that many trailing words of chunk `i`. -/
theorem c7_overlap_nonregression (chunkSize chunkOverlap : Nat) (text : Str)
    (i : Nat)
    (h : i + 1 < (createSizeBasedChunks chunkSize chunkOverlap text).length) :
    (splitWs ((createSizeBasedChunks chunkSize chunkOverlap text).getD (i + 1)
        dummyChunk).content).take
      (min (chunkOverlap / 10)
        (splitWs ((createSizeBasedChunks chunkSize chunkOverlap text).getD i
          dummyChunk).content).length) =
    (splitWs ((createSizeBasedChunks chunkSize chunkOverlap text).getD i
        dummyChunk).content).drop
      ((splitWs ((createSizeBasedChunks chunkSize chunkOverlap text).getD i
          dummyChunk).content).length -
        min (chunkOverlap / 10)
          (splitWs ((createSizeBasedChunks chunkSize chunkOverlap text).getD i
            dummyChunk).content).length) := by
  have hlen := createSizeBasedChunks_length chunkSize chunkOverlap text
  have hj1 : i + 1 < (chunkLoop chunkSize (chunkOverlap / 10) []
      (splitWs text)).length := by rw [← hlen]; exact h
  have hj0 : i < (chunkLoop chunkSize (chunkOverlap / 10) []
      (splitWs text)).length := by omega
  rw [createSizeBasedChunks_content_get chunkSize chunkOverlap text i hj0,
    createSizeBasedChunks_content_get chunkSize chunkOverlap text (i + 1) hj1]
  set groups := chunkLoop chunkSize (chunkOverlap / 10) [] (splitWs text)
    with hgroups
  have hri : splitWs (joinSpace (groups.get ⟨i, hj0⟩)) = groups.get ⟨i, hj0⟩ :=
    chunkLoop_splitWs_content chunkSize (chunkOverlap / 10) text _
      (List.get_mem _ _ _)
  have hrj : splitWs (joinSpace (groups.get ⟨i + 1, hj1⟩)) =
      groups.get ⟨i + 1, hj1⟩ :=
    chunkLoop_splitWs_content chunkSize (chunkOverlap / 10) text _
      (List.get_mem _ _ _)
  rw [hri, hrj]
  have hchain := chunkLoop_chain chunkSize (chunkOverlap / 10)
    (splitWs text) []
  rw [← hgroups] at hchain
  have hP := List.chain'_iff_get.mp hchain i (by omega)
  exact ovl_take_drop (chunkOverlap / 10) _ _ hP

/-- Witness for C7 at a concrete split section. -/
theorem c7_overlap_nonregression_witness :
    1 + 1 < (createSizeBasedChunks 10 20 (strLit "aaaaa bbbbb ccccc")).length ∧
    (splitWs ((createSizeBasedChunks 10 20
        (strLit "aaaaa bbbbb ccccc")).getD 2 dummyChunk).content).take
      (min (20 / 10)
        (splitWs ((createSizeBasedChunks 10 20
          (strLit "aaaaa bbbbb ccccc")).getD 1 dummyChunk).content).length) =
    (splitWs ((createSizeBasedChunks 10 20
        (strLit "aaaaa bbbbb ccccc")).getD 1 dummyChunk).content).drop
      ((splitWs ((createSizeBasedChunks 10 20
          (strLit "aaaaa bbbbb ccccc")).getD 1 dummyChunk).content).length -
        min (20 / 10)
          (splitWs ((createSizeBasedChunks 10 20
            (strLit "aaaaa bbbbb ccccc")).getD 1 dummyChunk).content).length) :=
  ⟨by decide, c7_overlap_nonregression 10 20 (strLit "aaaaa bbbbb ccccc") 1
    (by decide)⟩

/-! ## Claim C8: no partial ingestion -/

/-- C8: `add_documents` returns failure when given zero chunks or when
embedding generation throws, and in both cases the collection is returned
exactly as it was — `collection.add` is never reached. -/
theorem c8_add_documents_no_partial_ingestion
    (embed : List Str → Except Unit (List (List ℚ))) (coll : Collection)
    (chunks : List Chunk)
    (h : chunks = [] ∨
      embed (chunks.map Chunk.content) = Except.error ()) :
    addDocuments embed coll chunks = (false, coll) := by
  unfold addDocuments
  rcases h with rfl | he
  · simp
  · by_cases hemp : chunks.isEmpty
    · rw [if_pos hemp]
    · rw [if_neg hemp, he]

/-- Witness for C8: a failing embedding oracle leaves a one-document
collection untouched and reports failure. -/
theorem c8_add_documents_no_partial_ingestion_witness :
    addDocuments (fun _ => Except.error ()) ⟨[c1Doc]⟩ [dummyChunk] =
      (false, ⟨[c1Doc]⟩) :=
  c8_add_documents_no_partial_ingestion (fun _ => Except.error ())
    ⟨[c1Doc]⟩ [dummyChunk] (Or.inr rfl)

/-! ## Claim C9: empty-corpus safety -/

/-- C9: a hybrid retrieval against a freshly reset, unpopulated index is an
ordinary call that returns the empty list — for every query, result count,
filter and distance oracle — rather than raising. -/
theorem c9_empty_index_retrieval (dist : Str → Str → ℚ) (coll : Collection)
    (query : Str) (nResults : Nat) (whereFilter : Option Str) :
    searchSimilar dist (resetDatabase coll).2 query nResults whereFilter
      = [] := by
  unfold searchSimilar resetDatabase semanticSearch collectionQuery
    keywordSearch combineSearchResults addKeywordResults addSemanticResults
  cases whereFilter <;>
    simp [sortAscBy, sortDesc, dedupPass]

/-! ## Claim C10: the metadata filter only restricts the embedding path -/

/-- The constant distance oracle of the C10 run. -/
def c10Dist : Str → Str → ℚ := fun _ _ => 2

/-- C10: `_keyword_search` never reads its `where` parameter, so a
section-filtered hybrid search can return a chunk whose section does not
match the filter: with a one-document corpus under section `teachers` and
the filter `principal`, the semantic path is filtered to nothing while the
keyword path returns the document (boosted to score 1), whose metadata
violates the filter. -/
theorem c10_keyword_ignores_where :
    (∀ (coll : Collection) (q : Str) (n : Nat) (w w' : Option Str),
      keywordSearch coll q n w = keywordSearch coll q n w') ∧
    searchSimilar c10Dist ⟨[c1Doc]⟩ (strLit "julekha akter koli") 5
        (some sPrincipal) =
      [{ content := c1Doc.content, sectionName := strLit "teachers",
         similarityScore := 1, searchMethod := .keyword }] ∧
    strLit "teachers" ≠ sPrincipal := by
  refine ⟨fun _ _ _ _ _ => rfl, by decide, by decide⟩

/-! ## Claim C5: match confirmation -/

/-- The name tokens of claim C5: the purely alphabetic words of length > 2
remaining after stripping the question scaffolding (`"who is"`,
`"tell me about"`, `"?"`) from the lowercased query. -/
def claimNameTokens (query : Str) : List Str :=
  (splitWs (stripStr (removeAll (strLit "?")
    (removeAll (strLit "tell me about")
      (removeAll (strLit "who is") (lowerStr query)))))).filter
    (fun w => decide (w.length > 2) && isAlphaStr w)

/-- The confirmation rule asserted by claim C5: the content contains, as a
case-insensitive substring, at least `min(2, N)` of the `N` extracted name
tokens (counted with multiplicity). -/
def ClaimConfirm (content : Str) (query : Str) : Prop :=
  min 2 (claimNameTokens query).length ≤
    (claimNameTokens query).countP (fun w => isSubArr w (lowerStr content))

/-- C5 counterexample: for the query `"who is he?"` no name token survives
extraction, so the claim's bound is `min(2,0) = 0` and any content (here
`"xyz"`) vacuously satisfies it — the claim confirms, but the code's
explicit empty-token guard returns `False`. -/
theorem c5_counterexample :
    containsPersonName (strLit "xyz") (strLit "who is he?") = false ∧
    ClaimConfirm (strLit "xyz") (strLit "who is he?") := by
  refine ⟨by decide, ?_⟩
  show min 2 (claimNameTokens (strLit "who is he?")).length ≤ _
  decide

/-- C5, amended: the Orchestrator confirms a match if and only if at least
one name token was extracted and the content contains at least
`min(2, N)` of the `N` name tokens as case-insensitive substrings — with
zero extracted tokens it never confirms. -/
theorem c5_contains_person_name_amended (content query : Str) :
    containsPersonName content query = true ↔
      claimNameTokens query ≠ [] ∧ ClaimConfirm content query := by
  unfold containsPersonName ClaimConfirm claimNameTokens
  simp only [isAlphaStr]
  split
  · rename_i hemp
    simp only [Bool.false_eq_true, false_iff, not_and]
    intro hne
    exact absurd (by simpa [List.isEmpty_iff] using hemp) hne
  · rename_i hemp
    simp only [decide_eq_true_eq, ge_iff_le, true_iff, iff_true]
    constructor
    · intro h
      exact ⟨by simpa [List.isEmpty_iff] using hemp, h⟩
    · intro h
      exact h.2

/-! ## Claim C3: orchestration order -/

theorem expansionLoop_trace_head (search : SearchFun) (n : Nat)
    (userQuery : Str) (e : Str) (es : List Str)
    (best : Option (List SearchResult) × ℚ) :
    (expansionLoop search n userQuery (e :: es) best).2.2.head? =
      some (e, (none : Option Str)) := by
  simp only [expansionLoop]
  split
  · rfl
  · rfl

/-- C3, amended.  Expansion searches are issued only for queries classified
person-focused.  For a query that is neither person-focused nor routed to
the principal or class-captains special cases, the Orchestrator issues
exactly one search: the raw query with the section filter derived from it
(no filter when no section keyword matches), and returns its results
regardless of the acceptance floor.  For a person-focused query without
principal words, the expansion battery is issued first: the first search
issued is the first expanded query, not the raw query. -/
theorem c3_orchestrator_amended (search : SearchFun)
    (inject : Str → List SearchResult) (setEnum : List Str → List Str)
    (maxResults : Nat) (userQuery : Str) :
    (isPersonQuery userQuery = false →
      sectionFilterForQuery userQuery ≠ some sPrincipal →
      sectionFilterForQuery userQuery ≠ some sClassCaptains →
      retrieveWithExpansion search inject setEnum maxResults userQuery =
        ⟨search userQuery maxResults (sectionFilterForQuery userQuery),
         [(userQuery, sectionFilterForQuery userQuery)]⟩) ∧
    (∀ (e : Str) (es : List Str),
      isPersonQuery userQuery = true →
      (isSubArr sPrincipal (lowerStr userQuery) ||
        isSubArr (strLit "principle") (lowerStr userQuery)) = false →
      sectionFilterForQuery userQuery ≠ some sPrincipal →
      sectionFilterForQuery userQuery ≠ some sClassCaptains →
      generatePersonQueries setEnum userQuery = e :: es →
      (retrieveWithExpansion search inject setEnum maxResults
        userQuery).trace.head? = some (e, (none : Option Str))) := by
  constructor
  · intro hp hpr hcc
    simp only [retrieveWithExpansion, if_neg hpr, if_neg hcc, hp,
      Bool.false_and, Bool.false_eq_true, if_false, List.nil_append,
      List.append_nil, ite_self]
  · intro e es hp hnw hpr hcc hgen
    simp only [retrieveWithExpansion, if_neg hpr, if_neg hcc, hp, hnw,
      Bool.not_false, Bool.and_self, if_true, hgen, List.nil_append]
    set p := expansionLoop search maxResults userQuery (e :: es)
      ((none : Option (List SearchResult)), (-999 : ℚ)) with hp999
    have htr : p.2.2.head? = some (e, (none : Option Str)) :=
      expansionLoop_trace_head search maxResults userQuery e es _
    cases htrl : p.2.2 with
    | nil => rw [htrl] at htr; simp at htr
    | cons x tr' =>
      rw [htrl] at htr
      simp only [List.head?_cons, Option.some_inj] at htr
      subst htr
      cases ho : p.1 with
      | some r => simp [htrl]
      | none =>
        rcases hob : p.2.1 with ⟨ob, bs⟩
        cases ob with
        | some br =>
          by_cases hcond : ¬ br = [] ∧ qNegSevenTenths < bs
          · simp [hcond, htrl]
          · simp [hcond, htrl]
            split
            · rfl
            · split <;> rfl
        | none =>
          simp [htrl]
          split
          · rfl
          · split <;> rfl

/-- C3 counterexample: for the person query `"who is Alice Bob"` (no
section keyword, no principal word) the first underlying search issued is
the expansion `"Alice Bob teacher"`, not the raw query — the primary raw
search is issued only after the whole expansion battery. -/
theorem c3_counterexample :
    (retrieveWithExpansion (fun _ _ _ => []) (fun _ => []) id 5
        (strLit "who is Alice Bob")).trace.head? =
      some (strLit "Alice Bob teacher", (none : Option Str)) ∧
    strLit "Alice Bob teacher" ≠ strLit "who is Alice Bob" := by
  refine ⟨by decide, by decide⟩

/-- Witness for the amended C3 theorem: the non-person query
`"teacher list"` issues exactly the primary search with the derived
`teachers` filter. -/
theorem c3_orchestrator_amended_witness :
    retrieveWithExpansion (fun _ _ _ => []) (fun _ => []) id 5
        (strLit "teacher list") =
      ⟨[], [(strLit "teacher list",
        sectionFilterForQuery (strLit "teacher list"))]⟩ :=
  (c3_orchestrator_amended (fun _ _ _ => []) (fun _ => []) id 5
    (strLit "teacher list")).1 (by decide) (by decide) (by decide)

/-! ## Claim C4: cross-execution determinism -/

/-- The expansion result matched when `"Alice Bob teacher"` is searched
first. -/
def resA : SearchResult :=
  { content := strLit "alice bob is a teacher here",
    sectionName := strLit "teachers", similarityScore := 1,
    searchMethod := .keyword }

/-- The expansion result matched when `"Bob teacher"` is searched first. -/
def resB : SearchResult :=
  { content := strLit "bob alice second doc",
    sectionName := strLit "teachers", similarityScore := 1,
    searchMethod := .keyword }

/-- A fixed underlying index state for the C4 run: two expansion queries
hit different documents, both containing the person's name. -/
def searchC4 : SearchFun := fun q _ _ =>
  if q = strLit "Alice Bob teacher" then [resA]
  else if q = strLit "Bob teacher" then [resB]
  else []

/-- The expansion pool of `"who is Alice Bob"`, as the source computes it
before `list(set(...))`. -/
def c4Pool : List Str :=
  [strLit "Alice Bob teacher", strLit "Alice Bob instructor",
   strLit "Alice Bob staff", strLit "Alice Bob official",
   strLit "Alice Bob department", strLit "Alice Bob contact",
   strLit "Alice instructor", strLit "Bob teacher"]

/-- C4 counterexample: with the same query, result count and index state,
two valid enumerations of the Python set of expanded queries (two hash
seeds) make `_retrieve_with_expansion` return different result sequences:
the loop returns on the first expansion whose results contain the name,
and `list(set(...))` determines which expansion runs first. -/
theorem c4_counterexample :
    expandedQueryPool (strLit "who is Alice Bob") = c4Pool ∧
    IsSetEnum id c4Pool ∧ IsSetEnum List.reverse c4Pool ∧
    (retrieveWithExpansion searchC4 (fun _ => []) id 5
        (strLit "who is Alice Bob")).results = [resA] ∧
    (retrieveWithExpansion searchC4 (fun _ => []) List.reverse 5
        (strLit "who is Alice Bob")).results = [resB] ∧
    resA ≠ resB := by
  refine ⟨by decide, ⟨by decide, fun x => Iff.rfl⟩,
    ⟨by decide, fun x => List.mem_reverse⟩, by decide, by decide, by decide⟩

/-- C4, amended: for a fixed index state and a fixed set-enumeration order
(one process, one hash seed) retrieval is a pure function, and queries not
classified person-focused are independent of the enumeration entirely, so
they are deterministic across executions; for person-focused queries the
collection of expanded queries is fixed across executions — only its order,
and with it the returned result sequence, can vary. -/
theorem c4_determinism_amended (search : SearchFun)
    (inject : Str → List SearchResult) (e1 e2 : List Str → List Str)
    (maxResults : Nat) (q : Str) :
    (isPersonQuery q = false →
      retrieveWithExpansion search inject e1 maxResults q =
        retrieveWithExpansion search inject e2 maxResults q) ∧
    (IsSetEnum e1 (expandedQueryPool q) → IsSetEnum e2 (expandedQueryPool q) →
      ∀ x, x ∈ generatePersonQueries e1 q ↔
        x ∈ generatePersonQueries e2 q) := by
  constructor
  · intro hp
    simp only [retrieveWithExpansion, hp, Bool.false_and, Bool.false_eq_true,
      if_false]
  · intro h1 h2 x
    rw [generatePersonQueries, generatePersonQueries, h1.2 x, h2.2 x]

/-- Witness for the amended C4 theorem: a non-person query is unaffected by
the enumeration, and an expansion query's membership in the battery is
enumeration-independent. -/
theorem c4_determinism_amended_witness :
    (retrieveWithExpansion searchC4 (fun _ => []) id 5
        (strLit "the schedule") =
      retrieveWithExpansion searchC4 (fun _ => []) List.reverse 5
        (strLit "the schedule")) ∧
    (strLit "Bob teacher" ∈ generatePersonQueries id
        (strLit "who is Alice Bob") ↔
      strLit "Bob teacher" ∈ generatePersonQueries List.reverse
        (strLit "who is Alice Bob")) :=
  ⟨(c4_determinism_amended searchC4 (fun _ => []) id List.reverse 5
      (strLit "the schedule")).1 (by decide),
   (c4_determinism_amended searchC4 (fun _ => []) id List.reverse 5
      (strLit "who is Alice Bob")).2 ⟨by decide, fun x => Iff.rfl⟩
      ⟨by decide, fun x => List.mem_reverse⟩ (strLit "Bob teacher")⟩

end KpiRag
